import Mathlib

/-!
A verification development for a nonogram (picross) solver written in Python
(file `picross.py`).  The Python source is shallow-embedded below: the `State`
enum, the pure functions `get_possibilities`, `filter_possibilities` and
`deduce_facts`, and the `Picross` class with its `solve_step` propagation
cycle.  Python integers are modelled by `Int`, Python lists by `List`, and the
in-place mutation of `Picross` by explicit state passing.
-/

set_option autoImplicit false

/-- The cell-state enum of the source (`class State(enum.Enum)`), whose values
are the rendering glyphs: `WHITE = "."`, `BLACK = "#"`, `UNKNOWN = "?"`.
The spec calls `BLACK` "FILLED" and `WHITE` "EMPTY". -/
inductive State where
  | WHITE
  | BLACK
  | UNKNOWN
deriving DecidableEq, Repr

/-- The `.value` attribute of the Python enum: the glyph string of each state. -/
def State.value : State → String
  | State.WHITE => "."
  | State.BLACK => "#"
  | State.UNKNOWN => "?"

/-- Helper for `get_possibilities`.  The Python function destructures
`*init, last = constraints`, i.e. it recurses after removing the *last*
element; here we recurse structurally over the *reversed* constraint list, so
`gpRev constraints.reverse length` is exactly the source recursion.
Each branch mirrors the Python line by line:
`[[State.WHITE] * length]` for the empty constraint, and otherwise the list
comprehension
`[l + [WHITE]*(n != 0) + [BLACK]*last + [WHITE]*(length - n - last)
  for n in range(0, length - last + 1) for l in get_possibilities(init, n-1)]`.
Python's `[x] * k` for `k ≤ 0` is the empty list, hence the `Int.toNat`s, and
`range(0, m)` is empty for `m ≤ 0`, hence `(… + 1).toNat`. -/
def gpRev : List Int → Int → List (List State)
  | [], length => [List.replicate length.toNat State.WHITE]
  | last :: initRev, length =>
      (List.range (length - last + 1).toNat).flatMap (fun n =>
        (gpRev initRev ((n : Int) - 1)).map (fun l =>
          l ++ List.replicate (if n = 0 then 0 else 1) State.WHITE
            ++ List.replicate last.toNat State.BLACK
            ++ List.replicate (length - (n : Int) - last).toNat State.WHITE))

/-- `get_possibilities(constraints, length)` of the source: all arrangements
of a single line of the given length satisfying the run-length constraints. -/
def get_possibilities (constraints : List Int) (length : Int) : List (List State) :=
  gpRev constraints.reverse length

/-- The compatibility test inside `filter_possibilities`:
`all(f == State.UNKNOWN or f == c for c, f in zip(cs, fact))`.
`zip` truncates to the shorter list, as `List.zip` does. -/
def compatB (cs fact : List State) : Bool :=
  (cs.zip fact).all (fun cf => cf.2 == State.UNKNOWN || cf.2 == cf.1)

/-- `filter_possibilities(possibilities, fact)` of the source: keep the
possibilities compatible with the fact. -/
def filter_possibilities (possibilities : List (List State)) (fact : List State) :
    List (List State) :=
  possibilities.filter (fun cs => compatB cs fact)

/-- The length of `zip(*possibilities)` in Python: `0` when there are no
possibilities (`zip()` is empty), otherwise the minimum length. -/
def minLen : List (List State) → Nat
  | [] => 0
  | p :: ps => ps.foldl (fun m q => min m q.length) p.length

/-- The per-position consolidation of `deduce_facts`:
`ps[0] if len(set(ps)) == 1 else State.UNKNOWN` for a (nonempty) tuple `ps`
of the states at one position. -/
def consensus (col : List State) : State :=
  if col.all (fun c => c == col.headD State.UNKNOWN) then col.headD State.UNKNOWN
  else State.UNKNOWN

/-- `deduce_facts(possibilities)` of the source: position-wise over
`zip(*possibilities)` (which iterates positions `0 … minLen - 1`), emit the
common state when all possibilities agree and `UNKNOWN` otherwise. -/
def deduce_facts (possibilities : List (List State)) : List State :=
  (List.range (minLen possibilities)).map (fun k =>
    consensus (possibilities.map (fun p => p.getD k State.UNKNOWN)))

/-- The state of a `Picross` object: the fields set by `__init__` and mutated
by the solving methods. -/
structure Picross where
  row_constraints : List (List Int)
  column_constraints : List (List Int)
  width : Nat
  height : Nat
  board : List (List State)
  row_possibilities : List (List (List State))
  column_possibilities : List (List (List State))
deriving DecidableEq, Repr

/-- `Picross.__init__(rows, columns)`: the board starts fully `UNKNOWN` and
the possibility lists are computed by `get_possibilities` per line.  The
Python constructor contains no validation and no `raise`, so it is total. -/
def Picross.init (rows columns : List (List Int)) : Picross :=
  { row_constraints := rows
    column_constraints := columns
    width := columns.length
    height := rows.length
    board := rows.map (fun _ => columns.map (fun _ => State.UNKNOWN))
    row_possibilities := rows.map (fun rc => get_possibilities rc (columns.length : Int))
    column_possibilities := columns.map (fun cc => get_possibilities cc (rows.length : Int)) }

/-- `self.board[i]` (reads return `[]` out of range; in-range on every state a
run of the program produces, where `board` has `height` rows). -/
def Picross.row (p : Picross) (i : Nat) : List State :=
  p.board.getD i []

/-- `[self.board[i][j] for i in range(self.height)]` (out-of-range reads give
`UNKNOWN`; in-range on every state a run of the program produces). -/
def Picross.column (p : Picross) (j : Nat) : List State :=
  (List.range p.height).map (fun i => (p.board.getD i []).getD j State.UNKNOWN)

/-- The effect of `enrich_row` on one board row: for each position `j` of the
fact list with `row[j] != UNKNOWN`, overwrite `board[i][j]` with `row[j]`. -/
def enrichLine : List State → List State → List State
  | old, [] => old
  | [], _ :: _ => []
  | o :: os, f :: fs => (if f = State.UNKNOWN then o else f) :: enrichLine os fs

/-- `enrich_row(self, i, row)` of the source: write the non-`UNKNOWN` cells of
`row` into board row `i`. -/
def Picross.enrich_row (p : Picross) (i : Nat) (row : List State) : Picross :=
  { p with board := p.board.set i (enrichLine (p.board.getD i []) row) }

/-- `self.board[i][j] = v` as a pure board update (no-op out of range;
in-range on every state a run of the program produces). -/
def setCell (b : List (List State)) (i j : Nat) (v : State) : List (List State) :=
  b.set i ((b.getD i []).set j v)

/-- The board writes of `enrich_column(self, j, column)` of the source:
`for i in range(self.height): if column[i] != UNKNOWN: self.board[i][j] = column[i]`.
These are exactly the writes for `i < len(column)` (the `getD` default
`UNKNOWN` beyond the list writes nothing).  When `len(column) < height` the
loop additionally raises an uncaught `IndexError` at `i = len(column)`,
after having performed those same writes; that error path — reachable when a
column's candidate set has become empty — is modelled explicitly by
`Picross.enrich_column_raises` and `Picross.solve_stepE` below. -/
def Picross.enrich_column (p : Picross) (j : Nat) (column : List State) : Picross :=
  { p with board := (List.range p.height).foldl (fun b i =>
      if column.getD i State.UNKNOWN = State.UNKNOWN then b
      else setCell b i j (column.getD i State.UNKNOWN)) p.board }

/-- `solve_step(self)` of the source: first write the facts deduced from every
row's and then every column's possibilities into the board, then filter every
row's and every column's possibilities against the updated board. -/
def Picross.solve_step (p : Picross) : Picross :=
  let p1 := (List.range p.row_possibilities.length).foldl
      (fun q i => q.enrich_row i (deduce_facts (q.row_possibilities.getD i []))) p
  let p2 := (List.range p1.column_possibilities.length).foldl
      (fun q j => q.enrich_column j (deduce_facts (q.column_possibilities.getD j []))) p1
  let p3 := { p2 with row_possibilities :=
      ((List.range p2.row_possibilities.length).map
        (fun i => filter_possibilities (p2.row_possibilities.getD i []) (p2.row i))) }
  { p3 with column_possibilities :=
      ((List.range p3.column_possibilities.length).map
        (fun j => filter_possibilities (p3.column_possibilities.getD j []) (p3.column j))) }

/-- `is_solved(self)`: every board cell is non-`UNKNOWN`. -/
def Picross.is_solved (p : Picross) : Bool :=
  p.board.all (fun row => row.all (fun cell => cell != State.UNKNOWN))

/-- The state after `k` iterations of `solve_step`; a run of `solve` visits
exactly the states `solveSteps k (Picross.init rows columns)`. -/
def solveSteps : Nat → Picross → Picross
  | 0, p => p
  | k + 1, p => (solveSteps k p).solve_step

/-- `solve(self)`: `while not self.is_solved(): self.solve_step()`, modelled
with explicit fuel; `none` means the loop has not terminated within the given
number of iterations. -/
def solveFuel : Nat → Picross → Option Picross
  | 0, _ => none
  | fuel + 1, p => if p.is_solved then some p else solveFuel fuel p.solve_step

/-- Whether one `enrich_column(self, j, column)` call raises `IndexError`:
the loop evaluates `column[i]` for every `i in range(self.height)`, which
fails exactly when the fact list is shorter than the height. -/
def Picross.enrich_column_raises (p : Picross) (column : List State) : Bool :=
  column.length < p.height

/-- Whether `solve_step` raises `IndexError`.  From any state with the
shapes `__init__` establishes (board of `height` rows of `width` cells,
`height` row-possibility lists, `width` column-possibility lists, candidates
of the line's length), the row loop's writes are in range, so the only error
path of `solve_step` is a column fact list shorter than the height — which
happens exactly when that column's candidate set is empty, since
`deduce_facts` then returns `[]`. -/
def Picross.solve_step_raises (p : Picross) : Bool :=
  (List.range p.column_possibilities.length).any (fun j =>
    p.enrich_column_raises (deduce_facts (p.column_possibilities.getD j [])))

/-- `solve_step` with its error path made explicit: `none` models the
uncaught `IndexError` (which aborts `solve`); otherwise the cycle completes
and returns the updated state. -/
def Picross.solve_stepE (p : Picross) : Option Picross :=
  if p.solve_step_raises then none else some p.solve_step

/-- `__str__(self)` of the source:
`"\n".join(" ".join(cell.value for cell in row) for row in self.board)`. -/
def Picross.render (p : Picross) : String :=
  String.intercalate "\n" (p.board.map (fun row =>
    String.intercalate " " (row.map State.value)))

/-- The lengths of the maximal `BLACK` runs of a line, via an accumulator
holding the length of the current run. -/
def blackRunsAux : List State → Nat → List Nat
  | [], 0 => []
  | [], k + 1 => [k + 1]
  | State.BLACK :: rest, k => blackRunsAux rest (k + 1)
  | _ :: rest, 0 => blackRunsAux rest 0
  | _ :: rest, k + 1 => (k + 1) :: blackRunsAux rest 0

/-- The lengths of the maximal `BLACK` (i.e. FILLED) runs of a line, in
order.  Maximality means each adjacent pair of runs is separated by at least
one non-`BLACK` cell. -/
def blackRuns (l : List State) : List Nat :=
  blackRunsAux l 0

/-- The number of non-`UNKNOWN` cells of a board. -/
def countKnown (b : List (List State)) : Nat :=
  (b.map (fun r => r.countP (fun c => !(c == State.UNKNOWN)))).sum

/-- Board cell read with defaults: `b[i][j]`, `UNKNOWN` out of range. -/
def cellD (b : List (List State)) (i j : Nat) : State :=
  (b.getD i []).getD j State.UNKNOWN

/-- Modelled from the spec (§6, external interfaces): the textual rendering
contract, written from the spec's words — FILLED ↦ `#`, EMPTY ↦ `.`,
UNKNOWN ↦ `?` (the spec's FILLED is the code's `BLACK`, EMPTY its `WHITE`). -/
def specGlyph : State → String
  | State.BLACK => "#"
  | State.WHITE => "."
  | State.UNKNOWN => "?"

/-- Modelled from the spec (§6): glyphs joined with single spaces per row and
newlines between rows. -/
def specRender (board : List (List State)) : String :=
  String.intercalate "\n" (board.map (fun row =>
    String.intercalate " " (row.map specGlyph)))

lemma compatB_nil_left (fact : List State) : compatB [] fact = true := by
  cases fact <;> rfl

lemma compatB_nil_right (cs : List State) : compatB cs [] = true := by
  cases cs <;> rfl

lemma compatB_cons (c f : State) (cs fs : List State) :
    compatB (c :: cs) (f :: fs) = ((f == State.UNKNOWN || f == c) && compatB cs fs) := rfl

/-- Pointwise reading of the compatibility test: only positions below both
lengths are compared. -/
lemma compatB_iff (cs fact : List State) :
    compatB cs fact = true ↔
      ∀ i, i < cs.length → i < fact.length →
        fact.getD i State.UNKNOWN = State.UNKNOWN ∨
          fact.getD i State.UNKNOWN = cs.getD i State.UNKNOWN := by
  induction cs generalizing fact with
  | nil => simp [compatB_nil_left]
  | cons c cs ih =>
    cases fact with
    | nil => simp [compatB_nil_right]
    | cons f fs =>
      rw [compatB_cons, Bool.and_eq_true, ih]
      constructor
      · rintro ⟨h0, h⟩ i hi hi2
        cases i with
        | zero =>
          rcases Bool.or_eq_true _ _ |>.mp h0 with h1 | h1
          · exact Or.inl (by simpa using (beq_iff_eq.mp h1))
          · exact Or.inr (by simpa using (beq_iff_eq.mp h1))
        | succ i => simpa using h i (by simpa using hi) (by simpa using hi2)
      · intro h
        refine ⟨?_, fun i hi hi2 => by simpa using h (i + 1) (by simpa using hi) (by simpa using hi2)⟩
        rcases h 0 (by simp) (by simp) with h1 | h1
        · rw [List.getD_cons_zero] at h1
          simp [h1]
        · rw [List.getD_cons_zero, List.getD_cons_zero] at h1
          simp [h1]

/-- C6: `filter_possibilities(candidates, facts)` (same-length facts) retains
exactly the candidates `c` with `facts[i] == UNKNOWN or facts[i] == c[i]` at
every position `i`, and the result is a (not necessarily proper) subset of
the input. -/
theorem filter_possibilities_spec (ps : List (List State)) (fact : List State)
    (hlen : ∀ cs ∈ ps, cs.length = fact.length) :
    (∀ cs, cs ∈ filter_possibilities ps fact ↔
        (cs ∈ ps ∧ ∀ i, i < fact.length →
          fact.getD i State.UNKNOWN = State.UNKNOWN ∨
            fact.getD i State.UNKNOWN = cs.getD i State.UNKNOWN)) ∧
      (filter_possibilities ps fact).Sublist ps := by
  constructor
  · intro cs
    rw [filter_possibilities, List.mem_filter]
    constructor
    · rintro ⟨hmem, hcompat⟩
      refine ⟨hmem, fun i hi => ?_⟩
      exact (compatB_iff cs fact).mp hcompat i (by rw [hlen cs hmem]; exact hi) hi
    · rintro ⟨hmem, h⟩
      refine ⟨hmem, (compatB_iff cs fact).mpr fun i hi hi2 => h i hi2⟩
  · exact List.filter_sublist ps

theorem filter_possibilities_spec_witness :
    (∀ cs, cs ∈ filter_possibilities [[State.BLACK], [State.WHITE]] [State.BLACK] ↔
        (cs ∈ [[State.BLACK], [State.WHITE]] ∧ ∀ i, i < ([State.BLACK] : List State).length →
          ([State.BLACK] : List State).getD i State.UNKNOWN = State.UNKNOWN ∨
            ([State.BLACK] : List State).getD i State.UNKNOWN = cs.getD i State.UNKNOWN)) ∧
      (filter_possibilities [[State.BLACK], [State.WHITE]] [State.BLACK]).Sublist
        [[State.BLACK], [State.WHITE]] :=
  filter_possibilities_spec [[State.BLACK], [State.WHITE]] [State.BLACK] (by decide)

/-- C10: when the fact list is shorter than a candidate, only the overlapping
prefix (positions below the fact list's length) is compared; a candidate is
never rejected because of a cell beyond the end of the facts. -/
theorem filter_possibilities_short_fact (ps : List (List State)) (fact cs : List State)
    (hlen : fact.length < cs.length) :
    cs ∈ filter_possibilities ps fact ↔
      (cs ∈ ps ∧ ∀ i, i < fact.length →
        fact.getD i State.UNKNOWN = State.UNKNOWN ∨
          fact.getD i State.UNKNOWN = cs.getD i State.UNKNOWN) := by
  rw [filter_possibilities, List.mem_filter]
  constructor
  · rintro ⟨hmem, hcompat⟩
    exact ⟨hmem, fun i hi => (compatB_iff cs fact).mp hcompat i (Nat.lt_trans hi hlen) hi⟩
  · rintro ⟨hmem, h⟩
    exact ⟨hmem, (compatB_iff cs fact).mpr fun i hi hi2 => h i hi2⟩

theorem filter_possibilities_short_fact_witness :
    [State.BLACK, State.WHITE] ∈
        filter_possibilities [[State.BLACK, State.WHITE]] [State.BLACK] ↔
      ([State.BLACK, State.WHITE] ∈ [[State.BLACK, State.WHITE]] ∧
        ∀ i, i < ([State.BLACK] : List State).length →
          ([State.BLACK] : List State).getD i State.UNKNOWN = State.UNKNOWN ∨
            ([State.BLACK] : List State).getD i State.UNKNOWN =
              ([State.BLACK, State.WHITE] : List State).getD i State.UNKNOWN) :=
  filter_possibilities_short_fact [[State.BLACK, State.WHITE]] [State.BLACK]
    [State.BLACK, State.WHITE] (by decide)

/-- C9: `deduce_facts` on the empty possibility list is the empty fact list
(`zip()` over no iterables is empty); being a total function of the
embedding, it raises nothing. -/
theorem deduce_facts_nil : deduce_facts [] = [] := rfl

/-- C8: `str(picross)` renders `BLACK` (FILLED) as `#`, `WHITE` (EMPTY) as
`.` and `UNKNOWN` as `?`, cells joined by single spaces and rows joined by
newlines — i.e. the rendering of the source agrees with the format stated in
the spec. -/
theorem render_spec (p : Picross) : p.render = specRender p.board := by
  have h : State.value = specGlyph := by
    funext s
    cases s <;> rfl
  rw [Picross.render, specRender, h]

/-- When a nonempty constraint cannot fit (total run length plus mandatory
separators exceeds the line length), the enumeration is empty: the `range` in
the comprehension is empty at the innermost level that would place the first
block. -/
lemma gpRev_eq_nil_of_overflow :
    ∀ (rc : List Int) (n : Int), rc ≠ [] →
      rc.sum + (rc.length : Int) - 1 > n → gpRev rc n = [] := by
  intro rc
  induction rc with
  | nil => intro n h; exact absurd rfl h
  | cons last initRev ih =>
    intro n _ hover
    rw [List.sum_cons, List.length_cons] at hover
    simp only [gpRev]
    refine List.flatMap_eq_nil_iff.mpr (fun m hm => ?_)
    have hmem := List.mem_range.mp hm
    rcases eq_or_ne initRev [] with hinit | hinit
    · exfalso
      subst hinit
      have hz : (n - last + 1).toNat = 0 := by
        simp only [List.sum_nil, List.length_nil] at hover
        omega
      rw [hz] at hmem
      exact Nat.not_lt_zero m hmem
    · rw [ih ((m : Int) - 1) hinit ?_]
      · rfl
      · have hmle : (m : Int) < n - last + 1 := by omega
        omega

/-- C7: for a nonempty constraint too large for the line
(`sum(c) + len(c) - 1 > n`), `get_possibilities(c, n)` returns the empty
list; the function is total in the embedding, mirroring that the Python code
raises nothing here. -/
theorem get_possibilities_overfull_nil (c : List Int) (hc : c ≠ []) (n : Int)
    (hn : 0 ≤ n) (hover : c.sum + (c.length : Int) - 1 > n) :
    get_possibilities c n = [] := by
  rw [get_possibilities]
  refine gpRev_eq_nil_of_overflow c.reverse n ?_ ?_
  · simpa using hc
  · simpa [List.sum_reverse] using hover

theorem get_possibilities_overfull_nil_witness : get_possibilities [5] 3 = [] :=
  get_possibilities_overfull_nil [5] (by decide) 3 (by decide) (by decide)

lemma blackRunsAux_append_white (l m : List State) :
    ∀ k, blackRunsAux (l ++ State.WHITE :: m) k = blackRunsAux l k ++ blackRunsAux m 0 := by
  induction l with
  | nil => intro k; cases k <;> simp [blackRunsAux]
  | cons a l ih => intro k; cases a <;> cases k <;> simp [blackRunsAux, ih]

lemma blackRunsAux_replicate_black (b : Nat) (rest : List State) :
    ∀ k, blackRunsAux (List.replicate b State.BLACK ++ rest) k = blackRunsAux rest (k + b) := by
  induction b with
  | zero => intro k; simp
  | succ b ih =>
    intro k
    have hk : k + 1 + b = k + (b + 1) := by omega
    simp [List.replicate_succ, blackRunsAux, ih, hk]

lemma blackRunsAux_replicate_white_zero (p : Nat) :
    blackRunsAux (List.replicate p State.WHITE) 0 = [] := by
  induction p with
  | zero => rfl
  | succ p ih => simp [List.replicate_succ, blackRunsAux, ih]

lemma blackRunsAux_replicate_white_succ (p k : Nat) :
    blackRunsAux (List.replicate p State.WHITE) (k + 1) = [k + 1] := by
  cases p with
  | zero => rfl
  | succ p => simp [List.replicate_succ, blackRunsAux, blackRunsAux_replicate_white_zero]

lemma blackRuns_replicate_white (p : Nat) :
    blackRuns (List.replicate p State.WHITE) = [] :=
  blackRunsAux_replicate_white_zero p

/-- The maximal-run decomposition of one block followed by padding. -/
lemma blackRuns_block_pad (b p : Nat) (hb : 0 < b) :
    blackRuns (List.replicate b State.BLACK ++ List.replicate p State.WHITE) = [b] := by
  rw [blackRuns, blackRunsAux_replicate_black]
  cases b with
  | zero => exact absurd hb (by simp)
  | succ b => rw [Nat.zero_add, blackRunsAux_replicate_white_succ]

lemma sum_ge_length_of_pos (l : List Int) (h : ∀ x ∈ l, 0 < x) :
    (l.length : Int) ≤ l.sum := by
  induction l with
  | nil => simp
  | cons a l ih =>
    have ha := h a (by simp)
    have := ih (fun x hx => h x (by simp [hx]))
    simp only [List.length_cons, List.sum_cons]
    push_cast
    omega

/-- Core characterisation of the enumeration (on the reversed constraint
list): every produced arrangement has the required length, its maximal BLACK
runs are exactly the constraints in order, and every cell is BLACK or WHITE. -/
lemma gpRev_spec :
    ∀ (rc : List Int), (∀ x ∈ rc, 0 < x) → ∀ (len : Int) (arr : List State),
      arr ∈ gpRev rc len →
      arr.length = len.toNat ∧ blackRuns arr = rc.reverse.map Int.toNat ∧
        ∀ x ∈ arr, x = State.BLACK ∨ x = State.WHITE := by
  intro rc
  induction rc with
  | nil =>
    intro _ len arr harr
    simp only [gpRev, List.mem_singleton] at harr
    subst harr
    refine ⟨by simp, ?_, ?_⟩
    · simpa using blackRuns_replicate_white len.toNat
    · intro x hx
      exact Or.inr (List.eq_of_mem_replicate hx)
  | cons last initRev ih =>
    intro hpos len arr harr
    simp only [gpRev, List.mem_flatMap, List.mem_map] at harr
    obtain ⟨m, hm, pre, hpre, rfl⟩ := harr
    have hmem := List.mem_range.mp hm
    have hlast : 0 < last := hpos last (by simp)
    have hposI : ∀ x ∈ initRev, 0 < x := fun x hx => hpos x (by simp [hx])
    obtain ⟨hlen, hruns, hbw⟩ := ih hposI ((m : Int) - 1) pre hpre
    have hmle : (m : Int) ≤ len - last := by omega
    rcases Nat.eq_zero_or_pos m with hm0 | hmpos
    · -- the last (and only remaining) block starts at the very beginning
      subst hm0
      have hpre0 : pre = [] := List.eq_nil_of_length_eq_zero (by omega)
      have hinit0 : initRev = [] := by
        by_contra hne
        rw [gpRev_eq_nil_of_overflow initRev ((↑(0 : Nat) : Int) - 1) hne ?_] at hpre
        · exact absurd hpre (List.not_mem_nil pre)
        · have h1 : (1 : Int) ≤ initRev.length := by
            have := List.length_pos.mpr hne
            omega
          have h2 := sum_ge_length_of_pos initRev hposI
          omega
      subst hpre0
      subst hinit0
      have hif0 : (if (0 : Nat) = 0 then 0 else 1) = 0 := rfl
      rw [hif0, List.replicate_zero, List.append_nil, List.nil_append]
      refine ⟨?_, ?_, ?_⟩
      · simp only [List.length_append, List.length_replicate]
        omega
      · rw [blackRuns_block_pad _ _ (by omega)]
        simp
      · intro x hx
        rcases List.mem_append.mp hx with hx | hx
        · exact Or.inl (List.eq_of_mem_replicate hx)
        · exact Or.inr (List.eq_of_mem_replicate hx)
    · -- the block is preceded by a separator cell
      have hif : (if m = 0 then 0 else 1) = 1 := by
        simp [Nat.pos_iff_ne_zero.mp hmpos]
      have hassoc :
          pre ++ List.replicate (if m = 0 then 0 else 1) State.WHITE
              ++ List.replicate last.toNat State.BLACK
              ++ List.replicate (len - (m : Int) - last).toNat State.WHITE =
            pre ++ State.WHITE ::
              (List.replicate last.toNat State.BLACK
                ++ List.replicate (len - (m : Int) - last).toNat State.WHITE) := by
        rw [hif]
        simp [List.append_assoc]
      rw [hassoc]
      have hlenpre : pre.length = m - 1 := by
        rw [hlen]
        omega
      refine ⟨?_, ?_, ?_⟩
      · simp only [List.length_append, List.length_cons, List.length_replicate, hlenpre]
        omega
      · rw [blackRuns, blackRunsAux_append_white, ← blackRuns, ← blackRuns, hruns,
          blackRuns_block_pad _ _ (by omega)]
        simp
      · intro x hx
        rcases List.mem_append.mp hx with hx | hx
        · exact hbw x hx
        · rcases List.mem_cons.mp hx with hx | hx
          · exact Or.inr hx
          · rcases List.mem_append.mp hx with hx | hx
            · exact Or.inl (List.eq_of_mem_replicate hx)
            · exact Or.inr (List.eq_of_mem_replicate hx)

/-- C1: for a constraint of positive run lengths and a non-negative length,
every arrangement in `get_possibilities(c, n)` has total length `n`, its
maximal BLACK (FILLED) runs have exactly the lengths of `c` in order (hence
there are `len(c)` of them, each adjacent pair separated by at least one
non-BLACK cell), and every cell is BLACK or WHITE — so the separators and
all remaining cells are WHITE (EMPTY) and no cell is UNKNOWN. -/
theorem get_possibilities_arrangement_spec (c : List Int) (hc : ∀ x ∈ c, 0 < x)
    (n : Int) (hn : 0 ≤ n) (arr : List State) (h : arr ∈ get_possibilities c n) :
    arr.length = n.toNat ∧ blackRuns arr = c.map Int.toNat ∧
      ∀ x ∈ arr, x = State.BLACK ∨ x = State.WHITE := by
  have hspec := gpRev_spec c.reverse (fun x hx => hc x (List.mem_reverse.mp hx)) n arr h
  simpa using hspec

theorem get_possibilities_arrangement_spec_witness :
    ([State.BLACK, State.WHITE] : List State).length = (2 : Int).toNat ∧
      blackRuns [State.BLACK, State.WHITE] = ([1] : List Int).map Int.toNat ∧
      ∀ x ∈ ([State.BLACK, State.WHITE] : List State),
        x = State.BLACK ∨ x = State.WHITE :=
  get_possibilities_arrangement_spec [1] (by decide) 2 (by decide)
    [State.BLACK, State.WHITE] (by decide)

lemma getD_set_ne {α : Type} (l : List α) (i k : Nat) (a : α) (d : α) (h : k ≠ i) :
    (l.set i a).getD k d = l.getD k d := by
  rw [List.getD_eq_getElem?_getD, List.getD_eq_getElem?_getD,
    List.getElem?_set_ne (Ne.symm h)]

lemma getD_set_self {α : Type} (l : List α) (i : Nat) (a : α) (d : α) (h : i < l.length) :
    (l.set i a).getD i d = a := by
  rw [List.getD_eq_getElem?_getD, List.getElem?_set_self h]
  rfl

/-- The board transformation of the first loop of `solve_step`: enrich each
board row `i < len(row_possibilities)` with the facts deduced from that row's
possibilities. -/
def rowPhase (rp : List (List (List State))) (b : List (List State)) : List (List State) :=
  (List.range rp.length).foldl (fun b2 i =>
    b2.set i (enrichLine (b2.getD i []) (deduce_facts (rp.getD i [])))) b

/-- The board transformation of one `enrich_column` call. -/
def colWrite (h j : Nat) (column : List State) (b : List (List State)) : List (List State) :=
  (List.range h).foldl (fun b2 i =>
    if column.getD i State.UNKNOWN = State.UNKNOWN then b2
    else setCell b2 i j (column.getD i State.UNKNOWN)) b

/-- The board transformation of the second loop of `solve_step`: enrich each
board column `j < len(column_possibilities)` with the facts deduced from that
column's possibilities. -/
def colPhase (cp : List (List (List State))) (h : Nat) (b : List (List State)) :
    List (List State) :=
  (List.range cp.length).foldl (fun b2 j =>
    colWrite h j (deduce_facts (cp.getD j [])) b2) b

lemma foldl_enrich_row_eq (l : List Nat) :
    ∀ (p : Picross),
      l.foldl (fun q i => q.enrich_row i (deduce_facts (q.row_possibilities.getD i []))) p =
        { p with board := l.foldl (fun b2 i =>
            b2.set i (enrichLine (b2.getD i [])
              (deduce_facts (p.row_possibilities.getD i [])))) p.board } := by
  induction l with
  | nil => intro p; rfl
  | cons a t ih =>
    intro p
    rw [List.foldl_cons, List.foldl_cons,
      ih (p.enrich_row a (deduce_facts (p.row_possibilities.getD a [])))]
    rfl

lemma foldl_enrich_col_eq (l : List Nat) :
    ∀ (p : Picross),
      l.foldl (fun q j => q.enrich_column j (deduce_facts (q.column_possibilities.getD j []))) p =
        { p with board := l.foldl (fun b2 j =>
            colWrite p.height j (deduce_facts (p.column_possibilities.getD j [])) b2) p.board } := by
  induction l with
  | nil => intro p; rfl
  | cons a t ih =>
    intro p
    rw [List.foldl_cons, List.foldl_cons,
      ih (p.enrich_column a (deduce_facts (p.column_possibilities.getD a [])))]
    rfl

/-- `solve_step` in explicit form: the board after both enrichment loops, and
both possibility lists refiltered against that board. -/
lemma solve_step_eq (p : Picross) :
    p.solve_step =
      { p with
        board := colPhase p.column_possibilities p.height (rowPhase p.row_possibilities p.board)
        row_possibilities := ((List.range p.row_possibilities.length).map (fun i =>
          filter_possibilities (p.row_possibilities.getD i [])
            ((colPhase p.column_possibilities p.height
              (rowPhase p.row_possibilities p.board)).getD i [])))
        column_possibilities := ((List.range p.column_possibilities.length).map (fun j =>
          filter_possibilities (p.column_possibilities.getD j [])
            ((List.range p.height).map (fun i =>
              ((colPhase p.column_possibilities p.height
                (rowPhase p.row_possibilities p.board)).getD i []).getD j State.UNKNOWN)))) } := by
  simp only [Picross.solve_step]
  rw [foldl_enrich_row_eq, foldl_enrich_col_eq]
  rfl

lemma enrichLine_nil (fs : List State) : enrichLine [] fs = [] := by
  cases fs <;> rfl

lemma enrichLine_length : ∀ (old new : List State), (enrichLine old new).length = old.length := by
  intro old
  induction old with
  | nil => intro new; rw [enrichLine_nil]
  | cons o os ih =>
    intro new
    cases new with
    | nil => rfl
    | cons f fs => simp [enrichLine, ih]

lemma enrichLine_getD : ∀ (old new : List State) (k : Nat),
    (enrichLine old new).getD k State.UNKNOWN =
      if new.getD k State.UNKNOWN ≠ State.UNKNOWN ∧ k < old.length
        then new.getD k State.UNKNOWN else old.getD k State.UNKNOWN := by
  intro old
  induction old with
  | nil =>
    intro new k
    rw [enrichLine_nil]
    rw [if_neg (by simp)]
  | cons o os ih =>
    intro new k
    cases new with
    | nil =>
      rw [if_neg (by simp [List.getD])]
      rfl
    | cons f fs =>
      cases k with
      | zero =>
        simp only [enrichLine, List.getD_cons_zero, List.length_cons]
        rcases eq_or_ne f State.UNKNOWN with hf | hf
        · rw [if_pos hf, if_neg (by simp [hf])]
        · rw [if_neg hf, if_pos ⟨hf, Nat.succ_pos _⟩]
      | succ k =>
        simp only [enrichLine, List.getD_cons_succ, List.length_cons, Nat.add_lt_add_iff_right]
        exact ih fs k

lemma getD_range_map {α : Type} (f : Nat → α) (n k : Nat) (d : α) :
    ((List.range n).map f).getD k d = if k < n then f k else d := by
  rcases Nat.lt_or_ge k n with h | h
  · rw [if_pos h, List.getD_eq_getElem?_getD, List.getElem?_map, List.getElem?_range h]
    rfl
  · rw [if_neg (Nat.not_lt.mpr h), List.getD_eq_default]
    simpa using h

/-- The row-enrichment loop, characterised row by row: rows with an index
below `len(row_possibilities)` are enriched, the rest are untouched. -/
lemma foldl_set_range_spec (g : Nat → List State → List State)
    (hg : ∀ i, g i [] = []) (b : List (List State)) :
    ∀ (n : Nat),
      ((List.range n).foldl (fun b2 i => b2.set i (g i (b2.getD i []))) b).length = b.length ∧
      ∀ k, ((List.range n).foldl (fun b2 i => b2.set i (g i (b2.getD i []))) b).getD k [] =
        if k < n then g k (b.getD k []) else b.getD k [] := by
  intro n
  induction n with
  | zero => exact ⟨rfl, fun k => by simp⟩
  | succ n ih =>
    obtain ⟨ihlen, ihget⟩ := ih
    rw [List.range_succ, List.foldl_append, List.foldl_cons, List.foldl_nil]
    constructor
    · rw [List.length_set, ihlen]
    · intro k
      rcases eq_or_ne k n with rfl | hk
      · rcases Nat.lt_or_ge k b.length with hlt | hge
        · rw [getD_set_self _ _ _ _ (by rw [ihlen]; exact hlt), ihget k]
          simp
        · rw [List.set_eq_of_length_le (by rw [ihlen]; exact hge), ihget k]
          rw [if_neg (Nat.lt_irrefl k), if_pos (Nat.lt_succ_self k)]
          rw [List.getD_eq_default _ _ hge, hg k]
      · rw [getD_set_ne _ _ _ _ _ hk, ihget k]
        rcases Nat.lt_or_ge k n with h1 | h1
        · rw [if_pos h1, if_pos (Nat.lt_succ_of_lt h1)]
        · rw [if_neg (Nat.not_lt.mpr h1), if_neg (by omega)]

lemma rowPhase_length (rp : List (List (List State))) (b : List (List State)) :
    (rowPhase rp b).length = b.length :=
  (foldl_set_range_spec (fun i old => enrichLine old (deduce_facts (rp.getD i [])))
    (fun i => enrichLine_nil (deduce_facts (rp.getD i []))) b rp.length).1

lemma rowPhase_getD (rp : List (List (List State))) (b : List (List State)) (k : Nat) :
    (rowPhase rp b).getD k [] =
      if k < rp.length then enrichLine (b.getD k []) (deduce_facts (rp.getD k []))
      else b.getD k [] :=
  (foldl_set_range_spec (fun i old => enrichLine old (deduce_facts (rp.getD i [])))
    (fun i => enrichLine_nil (deduce_facts (rp.getD i []))) b rp.length).2 k

lemma rowPhase_row_length (rp : List (List (List State))) (b : List (List State)) (k : Nat) :
    ((rowPhase rp b).getD k []).length = (b.getD k []).length := by
  rw [rowPhase_getD]
  rcases Nat.lt_or_ge k rp.length with h | h
  · rw [if_pos h, enrichLine_length]
  · rw [if_neg (Nat.not_lt.mpr h)]

/-- One `enrich_column` loop, characterised cell by cell: within the first
`h` rows it writes the non-`UNKNOWN` facts of `column` into board column
`j` (when the write is in range), all other cells and all shapes are
untouched. -/
lemma colWrite_spec (j : Nat) (col : List State) (b : List (List State)) :
    ∀ (h : Nat),
      (colWrite h j col b).length = b.length ∧
      (∀ i, ((colWrite h j col b).getD i []).length = (b.getD i []).length) ∧
      (∀ i, h ≤ i → (colWrite h j col b).getD i [] = b.getD i []) ∧
      (∀ i k, cellD (colWrite h j col b) i k =
        if i < h ∧ k = j ∧ col.getD i State.UNKNOWN ≠ State.UNKNOWN ∧ i < b.length ∧
            j < (b.getD i []).length
          then col.getD i State.UNKNOWN else cellD b i k) := by
  intro h
  induction h with
  | zero =>
    refine ⟨rfl, fun i => rfl, fun i _ => rfl, fun i k => ?_⟩
    rw [if_neg (by simp)]
    rfl
  | succ h ih =>
    obtain ⟨ih1, ih2, ih3, ih4⟩ := ih
    have hstep : colWrite (h + 1) j col b =
        if col.getD h State.UNKNOWN = State.UNKNOWN then colWrite h j col b
        else setCell (colWrite h j col b) h j (col.getD h State.UNKNOWN) := by
      show (List.range (h + 1)).foldl (fun b2 i =>
        if col.getD i State.UNKNOWN = State.UNKNOWN then b2
        else setCell b2 i j (col.getD i State.UNKNOWN)) b = _
      rw [List.range_succ, List.foldl_append, List.foldl_cons, List.foldl_nil]
      rfl
    rcases eq_or_ne (col.getD h State.UNKNOWN) State.UNKNOWN with hcol | hcol
    · rw [hstep, if_pos hcol]
      refine ⟨ih1, ih2, fun i hi => ih3 i (by omega), fun i k => ?_⟩
      rw [ih4 i k]
      refine if_congr ⟨fun hc => ⟨Nat.lt_succ_of_lt hc.1, hc.2⟩, fun hc => ⟨?_, hc.2⟩⟩ rfl rfl
      have hne : i ≠ h := by
        intro he
        exact hc.2.2.1 (by rw [he]; exact hcol)
      omega
    · rw [hstep, if_neg hcol]
      rw [setCell]
      refine ⟨?_, ?_, ?_, ?_⟩
      · rw [List.length_set, ih1]
      · intro i
        rcases eq_or_ne i h with rfl | hne
        · rcases Nat.lt_or_ge i b.length with hlt | hge
          · rw [getD_set_self _ _ _ _ (by rw [ih1]; exact hlt), List.length_set, ih2]
          · rw [List.set_eq_of_length_le (by rw [ih1]; exact hge), ih2]
        · rw [getD_set_ne _ _ _ _ _ hne, ih2]
      · intro i hi
        rw [getD_set_ne _ _ _ _ _ (by omega), ih3 i (by omega)]
      · intro i k
        rcases eq_or_ne i h with rfl | hne
        · rcases Nat.lt_or_ge i b.length with hlt | hge
          · rw [cellD, getD_set_self _ _ _ _ (by rw [ih1]; exact hlt), ih3 i (Nat.le_refl i)]
            rcases eq_or_ne k j with rfl | hkj
            · rcases Nat.lt_or_ge k (b.getD i []).length with hrow | hrow
              · rw [getD_set_self _ _ _ _ hrow,
                  if_pos ⟨Nat.lt_succ_self i, rfl, hcol, hlt, hrow⟩]
              · rw [List.set_eq_of_length_le hrow,
                  if_neg (fun hc => absurd hc.2.2.2.2 (by omega))]
                rfl
            · rw [getD_set_ne _ _ _ _ _ hkj, if_neg (fun hc => hkj hc.2.1)]
              rfl
          · rw [cellD, List.set_eq_of_length_le (by rw [ih1]; exact hge), ← cellD, ih4,
              if_neg (fun hc => absurd hc.1 (Nat.lt_irrefl i)),
              if_neg (fun hc => absurd hc.2.2.2.1 (by omega))]
        · rw [cellD, getD_set_ne _ _ _ _ _ hne, ← cellD, ih4]
          refine if_congr ⟨fun hc => ⟨Nat.lt_succ_of_lt hc.1, hc.2⟩,
            fun hc => ⟨by omega, hc.2⟩⟩ rfl rfl

/-- The column-enrichment loop of `solve_step`, characterised cell by cell:
column `k < m` receives the non-`UNKNOWN` deduced facts of
`column_possibilities[k]` (for rows below `hh` and writes in range); all
other cells and all shapes are untouched. -/
lemma colPhase_loop_spec (cp : List (List (List State))) (hh : Nat) (b : List (List State)) :
    ∀ (m : Nat),
      ((List.range m).foldl (fun b2 j =>
          colWrite hh j (deduce_facts (cp.getD j [])) b2) b).length = b.length ∧
      (∀ i, (((List.range m).foldl (fun b2 j =>
          colWrite hh j (deduce_facts (cp.getD j [])) b2) b).getD i []).length =
        (b.getD i []).length) ∧
      (∀ i k, cellD ((List.range m).foldl (fun b2 j =>
          colWrite hh j (deduce_facts (cp.getD j [])) b2) b) i k =
        if k < m ∧ i < hh ∧
            (deduce_facts (cp.getD k [])).getD i State.UNKNOWN ≠ State.UNKNOWN ∧
            i < b.length ∧ k < (b.getD i []).length
          then (deduce_facts (cp.getD k [])).getD i State.UNKNOWN else cellD b i k) := by
  intro m
  induction m with
  | zero =>
    refine ⟨rfl, fun i => rfl, fun i k => ?_⟩
    rw [if_neg (by simp)]
    rfl
  | succ m ih =>
    obtain ⟨ih1, ih2, ih3⟩ := ih
    rw [List.range_succ, List.foldl_append, List.foldl_cons, List.foldl_nil]
    set F := (List.range m).foldl (fun b2 j =>
      colWrite hh j (deduce_facts (cp.getD j [])) b2) b with hF
    obtain ⟨c1, c2, _, c4⟩ := colWrite_spec m (deduce_facts (cp.getD m [])) F hh
    refine ⟨by rw [c1, ih1], fun i => by rw [c2, ih2], fun i k => ?_⟩
    rcases eq_or_ne k m with rfl | hkm
    · have helse : cellD F i k = cellD b i k := by
        rw [ih3 i k, if_neg (fun hc => absurd hc.1 (Nat.lt_irrefl k))]
      rw [c4 i k, ih1, ih2 i, helse]
      exact if_congr ⟨fun hc => ⟨Nat.lt_succ_self k, hc.1, hc.2.2⟩,
        fun hc => ⟨hc.2.1, rfl, hc.2.2⟩⟩ rfl rfl
    · rw [c4 i k, if_neg (fun hc => hkm hc.2.1), ih3 i k]
      exact if_congr ⟨fun hc => ⟨Nat.lt_succ_of_lt hc.1, hc.2⟩,
        fun hc => ⟨by omega, hc.2⟩⟩ rfl rfl

lemma colPhase_length (cp : List (List (List State))) (hh : Nat) (b : List (List State)) :
    (colPhase cp hh b).length = b.length :=
  (colPhase_loop_spec cp hh b cp.length).1

lemma colPhase_row_length (cp : List (List (List State))) (hh : Nat) (b : List (List State))
    (i : Nat) : ((colPhase cp hh b).getD i []).length = (b.getD i []).length :=
  (colPhase_loop_spec cp hh b cp.length).2.1 i

lemma colPhase_cellD (cp : List (List (List State))) (hh : Nat) (b : List (List State))
    (i k : Nat) :
    cellD (colPhase cp hh b) i k =
      if k < cp.length ∧ i < hh ∧
          (deduce_facts (cp.getD k [])).getD i State.UNKNOWN ≠ State.UNKNOWN ∧
          i < b.length ∧ k < (b.getD i []).length
        then (deduce_facts (cp.getD k [])).getD i State.UNKNOWN else cellD b i k :=
  (colPhase_loop_spec cp hh b cp.length).2.2 i k

lemma solve_step_board (p : Picross) :
    (p.solve_step).board =
      colPhase p.column_possibilities p.height (rowPhase p.row_possibilities p.board) := by
  rw [solve_step_eq]

lemma solve_step_height (p : Picross) : (p.solve_step).height = p.height := by
  rw [solve_step_eq]

lemma solve_step_rp_getD (p : Picross) (i : Nat) :
    (p.solve_step).row_possibilities.getD i [] =
      if i < p.row_possibilities.length
        then filter_possibilities (p.row_possibilities.getD i [])
          ((colPhase p.column_possibilities p.height
            (rowPhase p.row_possibilities p.board)).getD i [])
        else [] := by
  rw [solve_step_eq]
  exact getD_range_map _ _ _ _

lemma solve_step_cp_getD (p : Picross) (j : Nat) :
    (p.solve_step).column_possibilities.getD j [] =
      if j < p.column_possibilities.length
        then filter_possibilities (p.column_possibilities.getD j [])
          ((List.range p.height).map (fun i =>
            ((colPhase p.column_possibilities p.height
              (rowPhase p.row_possibilities p.board)).getD i []).getD j State.UNKNOWN))
        else [] := by
  rw [solve_step_eq]
  exact getD_range_map _ _ _ _

lemma foldl_min_le (t : List (List State)) :
    ∀ (a : Nat), t.foldl (fun m q => min m q.length) a ≤ a ∧
      ∀ q ∈ t, t.foldl (fun m q => min m q.length) a ≤ q.length := by
  induction t with
  | nil => exact fun a => ⟨Nat.le_refl a, fun q hq => absurd hq (List.not_mem_nil q)⟩
  | cons q t ih =>
    intro a
    obtain ⟨h1, h2⟩ := ih (min a q.length)
    refine ⟨Nat.le_trans h1 (Nat.min_le_left _ _), fun r hr => ?_⟩
    rcases List.mem_cons.mp hr with rfl | hr
    · exact Nat.le_trans h1 (Nat.min_le_right _ _)
    · exact h2 r hr

lemma minLen_le (ps : List (List State)) : ∀ cs ∈ ps, minLen ps ≤ cs.length := by
  intro cs hcs
  cases ps with
  | nil => exact absurd hcs (List.not_mem_nil cs)
  | cons q t =>
    rcases List.mem_cons.mp hcs with rfl | hcs
    · exact (foldl_min_le t cs.length).1
    · exact (foldl_min_le t q.length).2 cs hcs

lemma consensus_const (col : List State) (v : State) (hne : col ≠ [])
    (hall : ∀ x ∈ col, x = v) : consensus col = v := by
  obtain ⟨c, t, rfl⟩ := List.exists_cons_of_ne_nil hne
  have hc : c = v := hall c (by simp)
  subst hc
  rw [consensus, List.headD_cons, if_pos]
  rw [List.all_eq_true]
  intro x hx
  exact beq_iff_eq.mpr (hall x hx)

lemma deduce_facts_getD (ps : List (List State)) (k : Nat) :
    (deduce_facts ps).getD k State.UNKNOWN =
      if k < minLen ps
        then consensus (ps.map (fun p => p.getD k State.UNKNOWN)) else State.UNKNOWN :=
  getD_range_map _ _ _ _

/-- If every candidate is compatible with a fact line, then at a position
where the fact is a known (non-`UNKNOWN`) value `v`, the deduced fact is
either `UNKNOWN` or that same `v` — consolidation can never contradict an
already-known cell. -/
lemma deduce_getD_of_compat (ps : List (List State)) (fact : List State) (k : Nat) (v : State)
    (hcompat : ∀ cs ∈ ps, compatB cs fact = true)
    (hfact : fact.getD k State.UNKNOWN = v) (hv : v ≠ State.UNKNOWN) :
    (deduce_facts ps).getD k State.UNKNOWN = State.UNKNOWN ∨
      (deduce_facts ps).getD k State.UNKNOWN = v := by
  rw [deduce_facts_getD]
  rcases Nat.lt_or_ge k (minLen ps) with hk | hk
  · rw [if_pos hk]
    right
    have hkf : k < fact.length := by
      by_contra hge
      rw [List.getD_eq_default _ _ (Nat.le_of_not_lt hge)] at hfact
      exact hv hfact.symm
    have hne : ps ≠ [] := by
      intro he
      rw [he] at hk
      exact Nat.not_lt_zero k hk
    refine consensus_const _ v (by simpa using hne) ?_
    intro x hx
    obtain ⟨cs, hcs, rfl⟩ := List.mem_map.mp hx
    have hkcs : k < cs.length := Nat.lt_of_lt_of_le hk (minLen_le ps cs hcs)
    rcases (compatB_iff cs fact).mp (hcompat cs hcs) k hkcs hkf with h | h
    · rw [hfact] at h
      exact absurd h hv
    · rw [hfact] at h
      exact h.symm
  · rw [if_neg (Nat.not_lt.mpr hk)]
    exact Or.inl rfl

lemma getD_replicate {α : Type} (n i : Nat) (x d : α) :
    (List.replicate n x).getD i d = if i < n then x else d := by
  rcases Nat.lt_or_ge i n with h | h
  · rw [if_pos h, List.getD_eq_getElem?_getD, List.getElem?_replicate, if_pos h]
    rfl
  · rw [if_neg (Nat.not_lt.mpr h), List.getD_eq_default]
    simpa using h

/-- The compatibility invariant maintained between propagation cycles: every
remaining row (resp. column) candidate is compatible with the corresponding
board row (resp. column).  It holds for the freshly constructed state (the
board is all `UNKNOWN`) and is re-established at the end of every
`solve_step` by the refiltering loops. -/
def Compat (p : Picross) : Prop :=
  (∀ i, ∀ cs ∈ p.row_possibilities.getD i [],
    compatB cs (p.board.getD i []) = true) ∧
  (∀ j, ∀ cs ∈ p.column_possibilities.getD j [],
    compatB cs (p.column j) = true)

lemma compatB_of_all_unknown (cs fact : List State)
    (h : ∀ f ∈ fact, f = State.UNKNOWN) : compatB cs fact = true := by
  rw [compatB, List.all_eq_true]
  intro cf hcf
  obtain ⟨c, f⟩ := cf
  have hf : f ∈ fact := (List.of_mem_zip hcf).2
  rw [h f hf]
  rfl

lemma init_board_getD (rows columns : List (List Int)) (i : Nat) :
    (Picross.init rows columns).board.getD i [] =
      if i < rows.length then List.replicate columns.length State.UNKNOWN else [] := by
  show (rows.map (fun _ => columns.map (fun _ => State.UNKNOWN))).getD i [] = _
  rw [List.map_const', List.map_const', getD_replicate]

lemma compat_init (rows columns : List (List Int)) : Compat (Picross.init rows columns) := by
  constructor
  · intro i cs hcs
    refine compatB_of_all_unknown cs _ (fun f hf => ?_)
    rw [init_board_getD] at hf
    rcases Nat.lt_or_ge i rows.length with h | h
    · rw [if_pos h] at hf
      exact List.eq_of_mem_replicate hf
    · rw [if_neg (Nat.not_lt.mpr h)] at hf
      exact absurd hf (List.not_mem_nil f)
  · intro j cs hcs
    refine compatB_of_all_unknown cs _ (fun f hf => ?_)
    rw [Picross.column] at hf
    obtain ⟨i, _, rfl⟩ := List.mem_map.mp hf
    rw [init_board_getD]
    rcases Nat.lt_or_ge i rows.length with h | h
    · rw [if_pos h, getD_replicate]
      rcases Nat.lt_or_ge j columns.length with h2 | h2
      · rw [if_pos h2]
      · rw [if_neg (Nat.not_lt.mpr h2)]
    · rw [if_neg (Nat.not_lt.mpr h)]
      rfl

/-- The refiltering at the end of `solve_step` re-establishes the
compatibility invariant, whatever the input state was. -/
lemma compat_solve_step (p : Picross) : Compat p.solve_step := by
  constructor
  · intro i cs hcs
    rw [solve_step_rp_getD] at hcs
    by_cases hi : i < p.row_possibilities.length
    · rw [if_pos hi] at hcs
      have hm := List.mem_filter.mp hcs
      rw [solve_step_board]
      exact hm.2
    · rw [if_neg hi] at hcs
      exact absurd hcs (List.not_mem_nil cs)
  · intro j cs hcs
    rw [solve_step_cp_getD] at hcs
    by_cases hj : j < p.column_possibilities.length
    · rw [if_pos hj] at hcs
      have hm := List.mem_filter.mp hcs
      rw [Picross.column, solve_step_height, solve_step_board]
      exact hm.2
    · rw [if_neg hj] at hcs
      exact absurd hcs (List.not_mem_nil cs)

/-- Under the compatibility invariant, one `solve_step` never changes a cell
that is already FILLED or EMPTY: both enrichment loops can only rewrite it
with the same value. -/
lemma solve_step_cell_preserved (p : Picross) (hcompat : Compat p) (i j : Nat) (v : State)
    (hv : v ≠ State.UNKNOWN) (hc : cellD p.board i j = v) :
    cellD (p.solve_step).board i j = v := by
  obtain ⟨hrow, hcol⟩ := hcompat
  have hjlen : j < (p.board.getD i []).length := by
    by_contra hge
    rw [cellD, List.getD_eq_default _ _ (Nat.le_of_not_lt hge)] at hc
    exact hv hc.symm
  have hB1 : cellD (rowPhase p.row_possibilities p.board) i j = v := by
    rw [cellD, rowPhase_getD]
    by_cases hi : i < p.row_possibilities.length
    · rw [if_pos hi, enrichLine_getD]
      rcases deduce_getD_of_compat (p.row_possibilities.getD i []) (p.board.getD i []) j v
          (hrow i) hc hv with hU | hV
      · rw [if_neg (fun hcnd => hcnd.1 hU)]
        exact hc
      · rw [if_pos ⟨by rw [hV]; exact hv, hjlen⟩, hV]
    · rw [if_neg hi]
      exact hc
  rw [solve_step_board, colPhase_cellD]
  by_cases hih : i < p.height
  · have hfact : (p.column j).getD i State.UNKNOWN = v := by
      rw [Picross.column, getD_range_map, if_pos hih]
      exact hc
    rcases deduce_getD_of_compat (p.column_possibilities.getD j []) (p.column j) i v
        (hcol j) hfact hv with hU | hV
    · rw [if_neg (fun hcnd => hcnd.2.2.1 hU)]
      exact hB1
    · by_cases hcnd : j < p.column_possibilities.length ∧ i < p.height ∧
          (deduce_facts (p.column_possibilities.getD j [])).getD i State.UNKNOWN ≠
            State.UNKNOWN ∧
          i < (rowPhase p.row_possibilities p.board).length ∧
          j < ((rowPhase p.row_possibilities p.board).getD i []).length
      · rw [if_pos hcnd, hV]
      · rw [if_neg hcnd]
        exact hB1
  · rw [if_neg (fun hcnd => hih hcnd.2.1)]
    exact hB1

lemma compat_solveSteps (rows columns : List (List Int)) (k : Nat) :
    Compat (solveSteps k (Picross.init rows columns)) := by
  cases k with
  | zero => exact compat_init rows columns
  | succ k => exact compat_solve_step (solveSteps k (Picross.init rows columns))

/-- C2: throughout a run of `solve` (the states visited are exactly
`solveSteps k` of the freshly constructed instance), a board cell that is
FILLED or EMPTY after `k` propagation cycles still holds the very same value
after every later cycle — it is never flipped to the other non-`UNKNOWN`
value and never reset to `UNKNOWN`. -/
theorem board_cells_monotone (rows columns : List (List Int)) (k m i j : Nat) (v : State)
    (hv : v ≠ State.UNKNOWN)
    (h : cellD (solveSteps k (Picross.init rows columns)).board i j = v) :
    cellD (solveSteps (k + m) (Picross.init rows columns)).board i j = v := by
  induction m with
  | zero => exact h
  | succ m ih =>
    exact solve_step_cell_preserved (solveSteps (k + m) (Picross.init rows columns))
      (compat_solveSteps rows columns (k + m)) i j v hv ih

theorem board_cells_monotone_witness :
    cellD (solveSteps 2 (Picross.init [[1]] [[1]])).board 0 0 = State.BLACK :=
  board_cells_monotone [[1]] [[1]] 1 1 0 0 State.BLACK (by decide) (by decide)

lemma rowPhase_cell_known (rp : List (List (List State))) (b : List (List State)) (i j : Nat)
    (h : cellD b i j ≠ State.UNKNOWN) :
    cellD (rowPhase rp b) i j ≠ State.UNKNOWN := by
  rw [cellD, rowPhase_getD]
  by_cases hi : i < rp.length
  · rw [if_pos hi, enrichLine_getD]
    by_cases hcnd : (deduce_facts (rp.getD i [])).getD j State.UNKNOWN ≠ State.UNKNOWN ∧
        j < (b.getD i []).length
    · rw [if_pos hcnd]
      exact hcnd.1
    · rw [if_neg hcnd]
      exact h
  · rw [if_neg hi]
    exact h

/-- `solve_step` never resets a known cell to `UNKNOWN`: both enrichment
loops write only non-`UNKNOWN` values and leave other cells alone. -/
lemma solve_step_cell_known (p : Picross) (i j : Nat)
    (h : cellD p.board i j ≠ State.UNKNOWN) :
    cellD (p.solve_step).board i j ≠ State.UNKNOWN := by
  rw [solve_step_board, colPhase_cellD]
  by_cases hcnd : j < p.column_possibilities.length ∧ i < p.height ∧
      (deduce_facts (p.column_possibilities.getD j [])).getD i State.UNKNOWN ≠
        State.UNKNOWN ∧
      i < (rowPhase p.row_possibilities p.board).length ∧
      j < ((rowPhase p.row_possibilities p.board).getD i []).length
  · rw [if_pos hcnd]
    exact hcnd.2.2.1
  · rw [if_neg hcnd]
    exact rowPhase_cell_known p.row_possibilities p.board i j h

lemma solve_step_board_length (p : Picross) :
    (p.solve_step).board.length = p.board.length := by
  rw [solve_step_board, colPhase_length, rowPhase_length]

lemma solve_step_board_row_length (p : Picross) (i : Nat) :
    ((p.solve_step).board.getD i []).length = (p.board.getD i []).length := by
  rw [solve_step_board, colPhase_row_length, rowPhase_row_length]

lemma countP_mono_getD (l1 : List State) :
    ∀ (l2 : List State), l1.length = l2.length →
      (∀ k, l1.getD k State.UNKNOWN ≠ State.UNKNOWN →
        l2.getD k State.UNKNOWN ≠ State.UNKNOWN) →
      l1.countP (fun c => !(c == State.UNKNOWN)) ≤
        l2.countP (fun c => !(c == State.UNKNOWN)) := by
  induction l1 with
  | nil => intro l2 _ _; exact Nat.zero_le _
  | cons a t ih =>
    intro l2 hlen h
    cases l2 with
    | nil => simp at hlen
    | cons b t2 =>
      rw [List.countP_cons, List.countP_cons]
      have hrec := ih t2 (by simpa using hlen) (fun k hk => by
        have := h (k + 1)
        rw [List.getD_cons_succ, List.getD_cons_succ] at this
        exact this hk)
      rcases eq_or_ne a State.UNKNOWN with rfl | ha
      · have h0 : (!(State.UNKNOWN == State.UNKNOWN)) = false := rfl
        rw [h0]
        have h1 : (if false = true then 1 else 0) = 0 := rfl
        rw [h1]
        exact Nat.le_trans (by omega) (Nat.le_add_right _ _)
      · have hb : b ≠ State.UNKNOWN := by
          have := h 0
          rw [List.getD_cons_zero, List.getD_cons_zero] at this
          exact this ha
        have h2 : (!(a == State.UNKNOWN)) = true := by
          simp [ha]
        have h3 : (!(b == State.UNKNOWN)) = true := by
          simp [hb]
        rw [h2, h3]
        omega

lemma countKnown_mono (b1 : List (List State)) :
    ∀ (b2 : List (List State)), b1.length = b2.length →
      (∀ i, (b1.getD i []).length = (b2.getD i []).length) →
      (∀ i j, cellD b1 i j ≠ State.UNKNOWN → cellD b2 i j ≠ State.UNKNOWN) →
      countKnown b1 ≤ countKnown b2 := by
  induction b1 with
  | nil => intro b2 _ _ _; exact Nat.zero_le _
  | cons r t ih =>
    intro b2 hlen hrow h
    cases b2 with
    | nil => simp at hlen
    | cons r2 t2 =>
      show (r.countP (fun c => !(c == State.UNKNOWN)) ::
        t.map (fun r3 => r3.countP (fun c => !(c == State.UNKNOWN)))).sum ≤
        (r2.countP (fun c => !(c == State.UNKNOWN)) ::
          t2.map (fun r3 => r3.countP (fun c => !(c == State.UNKNOWN)))).sum
      rw [List.sum_cons, List.sum_cons]
      refine Nat.add_le_add ?_ ?_
      · refine countP_mono_getD r r2 ?_ ?_
        · have := hrow 0
          rw [List.getD_cons_zero, List.getD_cons_zero] at this
          exact this
        · intro k hk
          have := h 0 k
          rw [cellD, cellD, List.getD_cons_zero, List.getD_cons_zero] at this
          exact this hk
      · refine ih t2 (by simpa using hlen) ?_ ?_
        · intro i
          have := hrow (i + 1)
          rw [List.getD_cons_succ, List.getD_cons_succ] at this
          exact this
        · intro i j
          have := h (i + 1) j
          rw [cellD, cellD, List.getD_cons_succ, List.getD_cons_succ] at this
          exact this

lemma solve_step_count_le (p : Picross) :
    countKnown p.board ≤ countKnown (p.solve_step).board :=
  countKnown_mono p.board (p.solve_step).board (solve_step_board_length p).symm
    (fun i => (solve_step_board_row_length p i).symm)
    (fun i j => solve_step_cell_known p i j)

lemma solve_step_rp_le (p : Picross) (i : Nat) :
    ((p.solve_step).row_possibilities.getD i []).length ≤
      (p.row_possibilities.getD i []).length := by
  rw [solve_step_rp_getD]
  by_cases hi : i < p.row_possibilities.length
  · rw [if_pos hi]
    exact List.length_filter_le _ _
  · rw [if_neg hi]
    exact Nat.zero_le _

lemma solve_step_cp_le (p : Picross) (j : Nat) :
    ((p.solve_step).column_possibilities.getD j []).length ≤
      (p.column_possibilities.getD j []).length := by
  rw [solve_step_cp_getD]
  by_cases hj : j < p.column_possibilities.length
  · rw [if_pos hj]
    exact List.length_filter_le _ _
  · rw [if_neg hj]
    exact Nat.zero_le _

/-- C4: across successive propagation cycles of an instance, every row's and
every column's candidate-list size never increases, and the number of
non-`UNKNOWN` board cells never decreases. -/
theorem solve_step_monotone (rows columns : List (List Int)) (k i j : Nat) :
    (((solveSteps k (Picross.init rows columns)).solve_step).row_possibilities.getD i
        []).length ≤
      ((solveSteps k (Picross.init rows columns)).row_possibilities.getD i []).length ∧
    (((solveSteps k (Picross.init rows columns)).solve_step).column_possibilities.getD j
        []).length ≤
      ((solveSteps k (Picross.init rows columns)).column_possibilities.getD j []).length ∧
    countKnown (solveSteps k (Picross.init rows columns)).board ≤
      countKnown ((solveSteps k (Picross.init rows columns)).solve_step).board :=
  ⟨solve_step_rp_le _ i, solve_step_cp_le _ j, solve_step_count_le _⟩

/-- C3 counterexample: the engine never detects an emptied candidate set
and never raises a distinguishable "unsolvable puzzle" condition.  Two
concrete runs, one for each thing the claim forbids: on rows `[[1]]`,
columns `[[]]`, the row's candidate set becomes empty after the filtering of
the first cycle, yet the engine declares the puzzle solved and `solve`
terminates normally returning the all-`WHITE` board (which violates the row
constraint) — silent wrong output, no failure.  On rows `[[2], [], [2]]`,
columns `[[1], [1], [1]]`, the middle column's candidate set becomes empty
after the first cycle's filtering while the board is still unsolved, and the
next `solve_step` crashes with an uncaught `IndexError` in `enrich_column`
(`column[0]` on the empty deduced fact list) — a crash, not a detected
failure.  In both runs consolidation is invoked on the empty list (returning
`[]`) with no prior check. -/
theorem solve_no_emptiness_detection_cex :
    (solveSteps 1 (Picross.init [[1]] [[]])).row_possibilities = [[]] ∧
    (solveSteps 1 (Picross.init [[1]] [[]])).board = [[State.WHITE]] ∧
    (solveSteps 1 (Picross.init [[1]] [[]])).is_solved = true ∧
    solveFuel 2 (Picross.init [[1]] [[]]) =
      some (solveSteps 1 (Picross.init [[1]] [[]])) ∧
    deduce_facts ((solveSteps 1 (Picross.init [[1]] [[]])).row_possibilities.getD 0 []) =
      [] ∧
    (solveSteps 1 (Picross.init [[2], [], [2]] [[1], [1], [1]])).column_possibilities.getD
      1 [] = [] ∧
    (solveSteps 1 (Picross.init [[2], [], [2]] [[1], [1], [1]])).is_solved = false ∧
    (solveSteps 1 (Picross.init [[2], [], [2]] [[1], [1], [1]])).solve_stepE = none := by
  decide

/-- C3 (amended): the engine performs no emptiness check at all —
`deduce_facts` is invoked on the emptied candidate set and returns the empty
fact list.  For a *row*, this contributes no facts, the empty set persists
through the next cycle, and solving continues silently (possibly terminating
with a board that violates the constraint, or looping forever).  For a
*column* (on a board of positive height), the empty fact list makes the next
`solve_step` crash with an uncaught `IndexError` in `enrich_column`.  In
neither case is a distinguishable "unsolvable puzzle" condition raised. -/
theorem empty_possibilities_no_detection (p : Picross) (i j : Nat) :
    (p.row_possibilities.getD i [] = [] →
      deduce_facts (p.row_possibilities.getD i []) = [] ∧
      (p.solve_step).row_possibilities.getD i [] = []) ∧
    (p.column_possibilities.getD j [] = [] → j < p.column_possibilities.length →
      0 < p.height →
      deduce_facts (p.column_possibilities.getD j []) = [] ∧
      p.solve_stepE = none) := by
  constructor
  · intro h
    constructor
    · rw [h]
      rfl
    · rw [solve_step_rp_getD]
      by_cases hi : i < p.row_possibilities.length
      · rw [if_pos hi, h]
        rfl
      · rw [if_neg hi]
  · intro hcol hj hh
    have hraises : p.solve_step_raises = true := by
      rw [Picross.solve_step_raises, List.any_eq_true]
      refine ⟨j, List.mem_range.mpr hj, ?_⟩
      rw [hcol]
      exact decide_eq_true hh
    constructor
    · rw [hcol]
      rfl
    · rw [Picross.solve_stepE, if_pos hraises]

theorem empty_possibilities_no_detection_witness :
    (deduce_facts
        ((solveSteps 1 (Picross.init [[1]] [[]])).row_possibilities.getD 0 []) = [] ∧
      ((solveSteps 1 (Picross.init [[1]] [[]])).solve_step).row_possibilities.getD 0 [] =
        []) ∧
    (deduce_facts ((solveSteps 1
        (Picross.init [[2], [], [2]] [[1], [1], [1]])).column_possibilities.getD 1 []) =
        [] ∧
      (solveSteps 1 (Picross.init [[2], [], [2]] [[1], [1], [1]])).solve_stepE = none) :=
  ⟨(empty_possibilities_no_detection (solveSteps 1 (Picross.init [[1]] [[]])) 0 0).1
      (by decide),
    (empty_possibilities_no_detection
        (solveSteps 1 (Picross.init [[2], [], [2]] [[1], [1], [1]])) 0 1).2
      (by decide) (by decide) (by decide)⟩

/-- C5 counterexample: construction performs no input validation and raises
no failure.  With row constraint `[5]` on a width-3 board the constructor
completes normally, producing an ordinary state whose row candidate list is
simply empty; with the non-positive run length `0` the constructor also
completes, producing candidates containing no FILLED cell at all (twice
over). -/
theorem init_no_validation_cex :
    (Picross.init [[5]] [[], [], []]).row_possibilities = [[]] ∧
    (Picross.init [[5]] [[], [], []]).board =
      [[State.UNKNOWN, State.UNKNOWN, State.UNKNOWN]] ∧
    (Picross.init [[0]] [[0]]).row_possibilities =
      [[[State.WHITE], [State.WHITE]]] := by
  decide

/-- C5 (amended): the constructor validates nothing and always succeeds; a
row constraint whose total run length plus mandatory separators exceeds the
width merely yields an empty candidate set for that row (and solving then
proceeds without any surfaced failure; non-positive run lengths are likewise
accepted). -/
theorem oversized_constraint_empty_possibilities (rows columns : List (List Int)) (i : Nat)
    (h1 : rows.getD i [] ≠ [])
    (h2 : (rows.getD i []).sum + ((rows.getD i []).length : Int) - 1 >
      (columns.length : Int)) :
    (Picross.init rows columns).row_possibilities.getD i [] = [] := by
  by_cases hi : i < rows.length
  · have hgd : rows.getD i [] = rows[i] := by
      rw [List.getD_eq_getElem?_getD, List.getElem?_eq_getElem hi]
      rfl
    rw [hgd] at h1 h2
    show ((rows.map (fun rc => get_possibilities rc (columns.length : Int))).getD i []) = []
    rw [List.getD_eq_getElem?_getD, List.getElem?_map, List.getElem?_eq_getElem hi]
    show get_possibilities rows[i] (columns.length : Int) = []
    rw [get_possibilities]
    refine gpRev_eq_nil_of_overflow _ _ ?_ ?_
    · simpa using h1
    · simpa [List.sum_reverse] using h2
  · exact absurd (List.getD_eq_default _ _ (Nat.le_of_not_lt hi)) h1

theorem oversized_constraint_empty_possibilities_witness :
    (Picross.init [[5]] [[], [], []]).row_possibilities.getD 0 [] = [] :=
  oversized_constraint_empty_possibilities [[5]] [[], [], []] 0 (by decide) (by decide)
